import Mathlib

set_option maxHeartbeats 1000000

/-! Verification development for the next-yate-compat facade (src/index.js).
Strings are modelled as lists of characters, the JS numbers the facade
inspects as rationals, and the process-wide debug state as an explicit
record threaded through each operation. -/

/-- A JavaScript value as far as the facade inspects one: a number, a string,
a boolean, or undefined. Numbers are modelled as rationals: every finite JS
double is a rational, so the fractional levels the guards admit are
representable; NaN and the infinities are not modelled, and at those three
values the guards reject on both sides of every statement below. -/
inductive JsVal where
  | num (n : Rat)
  | str (s : List Char)
  | boolv (b : Bool)
  | undef
deriving DecidableEq

/-- Process-wide debug and alarm state: the fields Engine._debugName,
Engine._debugLevel and Engine._debug of src/index.js lines 130-132. -/
structure EngineState where
  _debugName : List Char
  _debugLevel : Rat
  _debug : Bool
deriving DecidableEq

namespace Engine

/-- Initial state built at facade construction (src/index.js 130-132):
_debugLevel = 8, _debug = true, _debugName copied from the underlying
client's trackname, which is external and so a parameter here. -/
def initState (trackname : List Char) : EngineState :=
  EngineState.mk trackname 8 true

/-- Severity table of src/index.js lines 115-126: the value of Engine[level]
for integer levels 0..10; any other index, fractional indices included, is
undefined (none). -/
def sevName (n : Rat) : Option (List Char) :=
  if n = 0 then some "FAIL".toList
  else if n = 1 then some "TEST".toList
  else if n = 2 then some "CRIT".toList
  else if n = 3 then some "CONF".toList
  else if n = 4 then some "STUB".toList
  else if n = 5 then some "WARN".toList
  else if n = 6 then some "MILD".toList
  else if n = 7 then some "NOTE".toList
  else if n = 8 then some "CALL".toList
  else if n = 9 then some "INFO".toList
  else if n = 10 then some "ALL".toList
  else none

/-- Tag of an emitted diagnostic line, from the template literal on lines 138
and 147; interpolation renders an undefined severity as the text
"undefined". -/
def mkTag (name : List Char) (n : Rat) : List Char :=
  '<' :: name ++ ':' :: ((sevName n).getD "undefined".toList) ++ ['>']

/-- One diagnostic output line: its tag and the remaining arguments. The
leading ISO timestamp comes from the external clock and is not modelled. -/
structure OutLine where
  tag : List Char
  rest : List JsVal
deriving DecidableEq

/-- Engine.debug, src/index.js 136-139: emits only when the level is a
number greater than -1, the enabled flag is on, and the configured level is
at least the requested one. -/
def debug (st : EngineState) (level : JsVal) (args : List JsVal) :
    EngineState × Option OutLine :=
  match level with
  | JsVal.num n =>
    if -1 < n ∧ st._debug = true ∧ n ≤ st._debugLevel then
      (st, some (OutLine.mk (mkTag st._debugName n) args))
    else (st, none)
  | _ => (st, none)

/-- Argument normalisation of Engine.alarm, src/index.js 142-145: a leading
string followed by a number makes that number the level and consumes it from
the argument list. -/
def normAlarm (level : JsVal) (args : List JsVal) : JsVal × List JsVal :=
  match level, args with
  | JsVal.str _, JsVal.num n :: restArgs => (JsVal.num n, restArgs)
  | _, _ => (level, args)

/-- Engine.alarm, src/index.js 141-149: after normalisation, emits whenever
the level is a number with -1 < level < 11; neither the enabled flag nor the
configured level is consulted. -/
def alarm (st : EngineState) (level : JsVal) (args : List JsVal) :
    EngineState × Option OutLine :=
  match (normAlarm level args).1 with
  | JsVal.num n =>
    if -1 < n ∧ n < 11 then
      (st, some (OutLine.mk (mkTag st._debugName n) (normAlarm level args).2))
    else (st, none)
  | _ => (st, none)

/-- Engine.debugName, src/index.js 201-204: with a string argument it sets
the name (returning undefined), otherwise it returns the current name. -/
def debugName (st : EngineState) (v : JsVal) : EngineState × JsVal :=
  match v with
  | JsVal.str s => (EngineState.mk s st._debugLevel st._debug, JsVal.undef)
  | _ => (st, JsVal.str st._debugName)

/-- Engine.debugLevel, src/index.js 206-209: a numeric argument is stored
verbatim, with no clamping; otherwise the current level is returned. -/
def debugLevel (st : EngineState) (v : JsVal) : EngineState × JsVal :=
  match v with
  | JsVal.num n => (EngineState.mk st._debugName n st._debug, JsVal.undef)
  | _ => (st, JsVal.num st._debugLevel)

/-- JS typeof test for boolean values. -/
def typeofBoolean : JsVal → Bool
  | JsVal.boolv _ => true
  | _ => false

/-- Engine.debugEnabled, src/index.js 211-214. The source guard reads
typeof level === "boolean" where level is an undeclared identifier, hence
undefined, so the guard is constantly false and the function always acts as
a getter. The setter branch is transcribed but unreachable; there the source
would store the raw argument, rendered here by coercing an actual boolean
and otherwise leaving the flag. -/
def debugEnabled (st : EngineState) (v : JsVal) : EngineState × JsVal :=
  if typeofBoolean JsVal.undef = true then
    (EngineState.mk st._debugName st._debugLevel
      (match v with | JsVal.boolv b => b | _ => st._debug), JsVal.undef)
  else (st, JsVal.boolv st._debug)

/-- Engine.debugAt, src/index.js 216, for a numeric argument. -/
def debugAt (st : EngineState) (level : Rat) : EngineState × Bool :=
  (st, decide (level ≤ st._debugLevel))

/-- Engine.setDebug, src/index.js 218-221: only a boolean argument sets the
enabled flag; anything else is a silent no-op. -/
def setDebug (st : EngineState) (v : JsVal) : EngineState × JsVal :=
  match v with
  | JsVal.boolv b => (EngineState.mk st._debugName st._debugLevel b, JsVal.undef)
  | _ => (st, JsVal.undef)

end Engine

/-- JS this-binding kind of a function: an arrow function uses the lexical
this of its definition site, a normal function invoked as a method uses the
call receiver. -/
inductive FunKind where
  | arrow
  | normal
deriving DecidableEq

/-- The this value observed inside a function body when the function is
invoked as a method of a receiver object, given the lexical this captured at
definition time. Objects are identified by allocation ids. -/
def thisOfCall (k : FunKind) (lexicalThis receiver : Nat) : Nat :=
  match k with
  | FunKind.arrow => lexicalThis
  | FunKind.normal => receiver

/-- Model of the Message constructor of src/index.js 57-77. A new Message
call first allocates the constructor this (id 0); the body then allocates
the YateMessage (id 1), which the constructor returns, so the caller only
ever holds id 1. The enqueue method (line 65) is an arrow function whose
lexical this is the constructor this; the dispatch method (lines 72-74) is a
normal function whose this is the call receiver. -/
structure MessageObj where
  name : List Char
  params : List (List Char × List Char)
  ctorThisId : Nat
  yateMsgId : Nat
deriving DecidableEq

/-- Constructing a Message: allocation order gives the constructor this
id 0 and the returned YateMessage id 1. -/
def newMessage (name : List Char) (params : List (List Char × List Char)) :
    MessageObj :=
  MessageObj.mk name params 0 1

/-- Object id handed to the underlying client's send path by
message.enqueue(), src/index.js line 65: the body is yate.enqueue(this)
inside an arrow function, and the method is called with the YateMessage as
receiver. -/
def enqueueArg (m : MessageObj) : Nat :=
  thisOfCall FunKind.arrow m.ctorThisId m.yateMsgId

/-- Object id handed to the underlying client by message.dispatch(),
src/index.js lines 72-74: a normal function, called with the YateMessage as
receiver. -/
def dispatchArg (m : MessageObj) : Nat :=
  thisOfCall FunKind.normal m.ctorThisId m.yateMsgId

namespace Engine

/-- The standard base64 alphabet used by Buffer's base64 codec. -/
def b64chars : List Char :=
  "ABCDEFGHIJKLMNOPQRSTUVWXYZabcdefghijklmnopqrstuvwxyz0123456789+/".toList

/-- Character for a 6-bit value. -/
def encChar (v : Nat) : Char :=
  b64chars.getD v 'A'

/-- Six-bit value of an alphabet character; padding and any character
outside the alphabet decode to none and are skipped, as in Buffer.from with
base64 encoding. -/
def decChar (c : Char) : Option Nat :=
  let i := b64chars.indexOf c
  if i < 64 then some i else none

/-- Engine.btoa, src/index.js 251: Buffer.from(line).toString with base64.
The input string is modelled by its byte sequence. -/
def btoa : List Nat → List Char
  | [] => []
  | [a] => [encChar (a / 4), encChar (a % 4 * 16), '=', '=']
  | [a, b] => [encChar (a / 4), encChar (a % 4 * 16 + b / 16),
               encChar (b % 16 * 4), '=']
  | a :: b :: c :: bs =>
      encChar (a / 4) :: encChar (a % 4 * 16 + b / 16) ::
      encChar (b % 16 * 4 + c / 64) :: encChar (c % 64) :: btoa bs

/-- Byte reassembly of a base64 digit stream, four digits to three bytes
with the usual truncated tail groups. -/
def decodeQuads : List Nat → List Nat
  | v1 :: v2 :: v3 :: v4 :: vs =>
      (v1 * 4 + v2 / 16) :: (v2 % 16 * 16 + v3 / 4) :: (v3 % 4 * 64 + v4) ::
      decodeQuads vs
  | [v1, v2, v3] => [v1 * 4 + v2 / 16, v2 % 16 * 16 + v3 / 4]
  | [v1, v2] => [v1 * 4 + v2 / 16]
  | _ => []

/-- Engine.atob, src/index.js 249: Buffer.from(encoded, base64), producing
the raw byte sequence; characters outside the alphabet are ignored. -/
def atob (s : List Char) : List Nat :=
  decodeQuads (s.filterMap decChar)

/-- Characters allowed inside a well-formed placeholder identifier: the
character class of the split regex on line 238 excludes the dollar sign and
both braces. -/
def isIdChar (c : Char) : Bool :=
  c ≠ '$' && c ≠ '\x7b' && c ≠ '\x7d'

/-- Characters matched by an unflagged dot in a JS regular expression:
everything except the four line terminators. Used by the lookup regex on
line 241. -/
def isDotChar (c : Char) : Bool :=
  c ≠ '\n' && c ≠ '\r' && c ≠ '\u2028' && c ≠ '\u2029'

/-- Attempt of the split regex of line 238 anchored at the head of the
string: a dollar, an opening brace, a nonempty greedy run of identifier
characters, a closing brace. Returns the matched delimiter and the rest. -/
def phHead (s : List Char) : Option (List Char × List Char) :=
  match s with
  | c1 :: c2 :: r =>
    match r.dropWhile isIdChar with
    | c3 :: tail =>
      if c1 = '$' ∧ c2 = '\x7b' ∧ c3 = '\x7d' ∧ r.takeWhile isIdChar ≠ [] then
        some (c1 :: c2 :: (r.takeWhile isIdChar ++ [c3]), tail)
      else none
    | [] => none
  | _ => none

/-- Leftmost match of the split regex of line 238: the text before the first
well-formed placeholder, the placeholder itself, and the rest. -/
def findPH : List Char → Option (List Char × List Char × List Char)
  | [] => none
  | c :: r =>
    match phHead (c :: r) with
    | some (d, a) => some ([], d, a)
    | none =>
      match findPH r with
      | some (b, d, a) => some (c :: b, d, a)
      | none => none

/-- Fuelled worker for the capturing split of line 238. -/
def splitGo : Nat → List Char → List (List Char)
  | 0, s => [s]
  | Nat.succ fuel, s =>
    match findPH s with
    | none => [s]
    | some (b, d, a) => b :: d :: splitGo fuel a

/-- The capturing split of line 238: buf.split on the placeholder pattern
with the delimiter retained as its own segment. -/
def splitPH (s : List Char) : List (List Char) :=
  splitGo s.length s

/-- Index of the last closing brace in a list, if any. -/
def lastCloseIdx : List Char → Option Nat
  | [] => none
  | c :: r =>
    match lastCloseIdx r with
    | some j => some (j + 1)
    | none => if c = '\x7d' then some 0 else none

/-- Greedy capture of the lookup regex of line 241 after its opening
dollar-brace: the dot-plus takes the maximal run of non-line-terminator
characters and backtracks to the last closing brace inside it, requiring a
nonempty capture. -/
def greedyCap (r : List Char) : Option (List Char) :=
  match lastCloseIdx (r.takeWhile isDotChar) with
  | some j => if 1 ≤ j then some ((r.takeWhile isDotChar).take j) else none
  | none => none

/-- Attempt of the lookup regex of line 241 anchored at the head. -/
def mkHead (s : List Char) : Option (List Char) :=
  match s with
  | c1 :: c2 :: r =>
    if c1 = '$' ∧ c2 = '\x7b' then greedyCap r else none
  | _ => none

/-- Leftmost match of the lookup regex of line 241, returning the captured
key, i.e. the value of key[1] in the source when the match is non-null. -/
def matchKey : List Char → Option (List Char)
  | [] => none
  | c :: r =>
    match mkHead (c :: r) with
    | some k => some k
    | none => matchKey r

/-- Property names of Object.prototype, which the JS in operator sees
through the prototype chain on an object literal passed as params. -/
def protoProps : List (List Char) :=
  ["constructor".toList, "hasOwnProperty".toList, "isPrototypeOf".toList,
   "propertyIsEnumerable".toList, "toLocaleString".toList, "toString".toList,
   "valueOf".toList, "__defineGetter__".toList, "__defineSetter__".toList,
   "__lookupGetter__".toList, "__lookupSetter__".toList, "__proto__".toList]

/-- The JS test key in params on an object literal: true for an own key and
also for every inherited Object.prototype property name. -/
def jsIn (params : List (List Char × List Char)) (k : List Char) : Bool :=
  (params.lookup k).isSome || protoProps.contains k

/-- The JS property read params[k], as the join on line 246 stringifies it:
an own key yields its value; an absent key that hits the prototype chain
yields an inherited member of Object.prototype, a host function object (or,
for the proto accessor, the prototype object) whose string conversion text
is host-defined; it is modelled by the usual native-code source text, in
any case a nonempty string and never the empty contribution of a dropped
placeholder. -/
def jsGet (params : List (List Char × List Char)) (k : List Char) :
    List Char :=
  match params.lookup k with
  | some v => v
  | none => "function () \x7b [native code] \x7d".toList

/-- Engine.replaceParams, src/index.js 235-247: split the buffer on
well-formed placeholders keeping the delimiters, then for each segment run
the lookup regex; a matching segment contributes params[key] when the in
test on line 243 holds for the captured key (own keys and inherited
prototype property names alike) and nothing otherwise, and a segment with
no match is pushed verbatim; finally join with no separator. -/
def replaceParams (buf : List Char)
    (params : List (List Char × List Char)) : List Char :=
  ((splitPH buf).map (fun seg =>
    match matchKey seg with
    | some k =>
      if jsIn params k = true then jsGet params k else []
    | none => seg)).flatten

end Engine

/-- Abstract template for the refinement statement about replaceParams: a
list of literal pieces and placeholder pieces. -/
inductive TPiece where
  | lit (s : List Char)
  | ph (key : List Char)
deriving DecidableEq

/-- Rendering of an abstract template into the concrete buffer string. -/
def renderT : List TPiece → List Char
  | [] => []
  | TPiece.lit s :: t => s ++ renderT t
  | TPiece.ph k :: t => '$' :: '\x7b' :: (k ++ '\x7d' :: renderT t)

/-- Side conditions under which the rendered template is unambiguous:
literal pieces contain no dollar sign, and placeholder keys are nonempty,
contain neither dollar nor braces, contain no line terminator, and, when
absent from params, are not inherited Object.prototype property names
(which the in test of the source would treat as present). -/
def goodPiece (params : List (List Char × List Char)) : TPiece → Bool
  | TPiece.lit s => s.all (fun c => c ≠ '$')
  | TPiece.ph k =>
    !k.isEmpty && k.all (fun c => Engine.isIdChar c && Engine.isDotChar c) &&
      ((params.lookup k).isSome || !(Engine.protoProps.contains k))

/-- Template expansion exactly as the specification words it: literals are
copied verbatim, a placeholder whose key is present in params is replaced by
the corresponding value, and a placeholder whose key is absent contributes
the empty string; the pieces are concatenated with no separator. -/
def specReplace (params : List (List Char × List Char)) : List TPiece → List Char
  | [] => []
  | TPiece.lit s :: t => s ++ specReplace params t
  | TPiece.ph k :: t =>
    (match params.lookup k with
     | some v => v
     | none => []) ++ specReplace params t

/-- C3 counterexample: the claim says a negative level produces no output,
but Engine.debug at the fractional level minus one half emits on the
initial state, because the source guard is level greater than minus one,
which admits the whole band between minus one and zero. -/
theorem debug_emits_negative_fraction :
    ((Engine.debug (Engine.initState []) (JsVal.num (-1/2)) []).2.isSome
      = true) ∧
    ¬ (0 ≤ (-1/2 : Rat)) := by
  constructor
  · norm_num [Engine.debug, Engine.initState]
  · norm_num

/-- C3 (amended): Engine.debug emits an output line if and only if the
level is a number strictly greater than minus one (so fractional levels
between minus one and zero also emit), the enabled flag is true, and the
level is at most the configured debug level; in every other case it
produces no output. -/
theorem debug_emits_iff (st : EngineState) (level : JsVal) (args : List JsVal) :
    (Engine.debug st level args).2.isSome = true ↔
      ∃ n : Rat, level = JsVal.num n ∧ -1 < n ∧ st._debug = true ∧
        n ≤ st._debugLevel := by
  cases level with
  | num n =>
    by_cases h : -1 < n ∧ st._debug = true ∧ n ≤ st._debugLevel
    · constructor
      · intro _
        exact ⟨n, rfl, h.1, h.2.1, h.2.2⟩
      · intro _
        simp [Engine.debug, if_pos h]
    · constructor
      · intro hs
        simp [Engine.debug, if_neg h] at hs
      · rintro ⟨m, hm, h0, hd, hl⟩
        injection hm with he
        subst he
        exact absurd ⟨h0, hd, hl⟩ h
  | str s => simp [Engine.debug]
  | boolv b => simp [Engine.debug]
  | undef => simp [Engine.debug]

/-- C2 counterexample: the claim says levels above ten produce no output,
but Engine.alarm at the fractional level twenty-one halves emits, because
the source guard is level below eleven, which admits the whole band between
ten and eleven. -/
theorem alarm_emits_above_ten :
    ((Engine.alarm (Engine.initState []) (JsVal.num (21/2)) []).2.isSome
      = true) ∧
    ¬ ((21/2 : Rat) ≤ 10) := by
  constructor
  · norm_num [Engine.alarm, Engine.normAlarm]
  · norm_num

/-- C2 (amended): Engine.alarm emits an output line exactly when the
normalized level (a leading string argument followed by a number makes that
number the level) is a number strictly between minus one and eleven — for
integer levels exactly zero to ten, but fractional levels in the open bands
at both ends also emit, then tagged with the severity text undefined — and
the emission does not depend on the enabled flag or the configured debug
level. -/
theorem alarm_emits_iff (st : EngineState) (level : JsVal) (args : List JsVal) :
    ((Engine.alarm st level args).2.isSome = true ↔
      ∃ n : Rat, (Engine.normAlarm level args).1 = JsVal.num n ∧
        -1 < n ∧ n < 11) ∧
    ∀ (lvl : Rat) (en : Bool),
      (Engine.alarm (EngineState.mk st._debugName lvl en) level args).2 =
        (Engine.alarm st level args).2 := by
  constructor
  · cases h : (Engine.normAlarm level args).1 with
    | num n =>
      by_cases hc : -1 < n ∧ n < 11
      · constructor
        · intro _
          exact ⟨n, rfl, hc.1, hc.2⟩
        · intro _
          simp [Engine.alarm, h, if_pos hc]
      · constructor
        · intro hs
          simp [Engine.alarm, h, if_neg hc] at hs
        · rintro ⟨m, hm, h0, hl⟩
          injection hm with he
          subst he
          exact absurd ⟨h0, hl⟩ hc
    | str s => simp [Engine.alarm, h]
    | boolv b => simp [Engine.alarm, h]
    | undef => simp [Engine.alarm, h]
  · intro lvl en
    cases h : (Engine.normAlarm level args).1 with
    | num n =>
      by_cases hc : -1 < n ∧ n < 11 <;> simp [Engine.alarm, h, hc]
    | str s => simp [Engine.alarm, h]
    | boolv b => simp [Engine.alarm, h]
    | undef => simp [Engine.alarm, h]

/-- C4: the claim says debugEnabled with a boolean argument sets the
process-wide enabled flag and returns nothing; the source instead tests the
undeclared identifier level, so the setter branch is dead: at the failing
input debugEnabled(false) the flag stays true and the current flag is
returned. -/
theorem debugEnabled_setter_is_dead :
    (Engine.debugEnabled (Engine.initState []) (JsVal.boolv false)).1._debug
        = true ∧
    (Engine.debugEnabled (Engine.initState []) (JsVal.boolv false)).2 =
        JsVal.boolv true := by decide

/-- C5 counterexample: after the facade accessor call debugLevel(11) on the
initial state, the configured level is 11, outside the eleven defined
severities, so the in-range invariant is violated. -/
theorem debugLevel_invariant_fails :
    ¬ (0 ≤ ((Engine.debugLevel (Engine.initState []) (JsVal.num 11)).1)._debugLevel ∧
       ((Engine.debugLevel (Engine.initState []) (JsVal.num 11)).1)._debugLevel ≤ 10) := by
  decide

/-- C5 amended: the configured level starts at 8, in range, and
Engine.debugLevel stores any numeric argument verbatim with no clamping
(and leaves the level unchanged for non-numeric arguments), so the level
stays in range only when callers pass in-range numbers. -/
theorem debugLevel_init_and_store (name : List Char) (st : EngineState)
    (v : JsVal) :
    (0 ≤ (Engine.initState name)._debugLevel ∧
      (Engine.initState name)._debugLevel ≤ 10) ∧
    ((Engine.debugLevel st v).1)._debugLevel =
      (match v with
       | JsVal.num n => n
       | _ => st._debugLevel) := by
  refine ⟨⟨by norm_num [Engine.initState], by norm_num [Engine.initState]⟩, ?_⟩
  cases v <;> simp [Engine.debugLevel]

/-- C6: the claim says enqueue hands the constructed message to the
underlying client's send path; the source arrow function instead passes the
constructor invocation's this, which is not the YateMessage returned to the
caller, while dispatch (a normal function) does pass the message. Evaluated
at the failing input new Message("engine.status"). -/
theorem enqueue_passes_wrong_object :
    enqueueArg (newMessage "engine.status".toList []) ≠
      (newMessage "engine.status".toList []).yateMsgId ∧
    dispatchArg (newMessage "engine.status".toList []) =
      (newMessage "engine.status".toList []).yateMsgId := by decide

/-- C9: Engine.debugAt on a numeric level returns true exactly when the
level is at most the value returned by the no-argument Engine.debugLevel
call, and the answer does not depend on the debug name or the enabled
flag. -/
theorem debugAt_iff (st : EngineState) (n : Rat) :
    ((Engine.debugAt st n).2 = true ↔
      ∃ m : Rat, (Engine.debugLevel st JsVal.undef).2 = JsVal.num m ∧ n ≤ m) ∧
    ∀ (nm : List Char) (b : Bool),
      (Engine.debugAt (EngineState.mk nm st._debugLevel b) n).2 =
        (Engine.debugAt st n).2 := by
  constructor
  · simp [Engine.debugAt, Engine.debugLevel]
  · intro nm b; simp [Engine.debugAt]

/-- C10: the diagnostic operations Engine.debug, Engine.alarm and
Engine.debugAt leave the whole debug state record (name, level, enabled
flag) unchanged for every argument list. -/
theorem diagnostics_preserve_state (st : EngineState) (level : JsVal)
    (args : List JsVal) (n : Rat) :
    (Engine.debug st level args).1 = st ∧
    (Engine.alarm st level args).1 = st ∧
    (Engine.debugAt st n).1 = st := by
  refine ⟨?_, ?_, rfl⟩
  · cases level with
    | num m =>
      by_cases h : -1 < m ∧ st._debug = true ∧ m ≤ st._debugLevel <;>
        simp [Engine.debug, h]
    | str s => simp [Engine.debug]
    | boolv b => simp [Engine.debug]
    | undef => simp [Engine.debug]
  · cases h : (Engine.normAlarm level args).1 with
    | num m => by_cases hc : -1 < m ∧ m < 11 <;> simp [Engine.alarm, h, hc]
    | str s => simp [Engine.alarm, h]
    | boolv b => simp [Engine.alarm, h]
    | undef => simp [Engine.alarm, h]

/-- Decoding inverts encoding on each six-bit value. -/
theorem decChar_encChar : ∀ v : Fin 64,
    Engine.decChar (Engine.encChar v.1) = some v.1 := by decide

/-- Bound-hypothesis form of decChar_encChar. -/
theorem decChar_encChar_of_lt (v : Nat) (hv : v < 64) :
    Engine.decChar (Engine.encChar v) = some v :=
  decChar_encChar ⟨v, hv⟩

/-- The padding character is skipped by the decoder. -/
theorem decChar_pad : Engine.decChar '=' = none := by decide

/-- C7: decoding the encoding returns the original byte sequence, for every
byte sequence including the empty one; strings are represented by their
bytes, so this is the atob-btoa round trip of the claim. -/
theorem atob_btoa_roundtrip : ∀ bs : List Nat, (∀ b ∈ bs, b < 256) →
    Engine.atob (Engine.btoa bs) = bs := by
  intro bs
  induction bs using Engine.btoa.induct with
  | case1 =>
    intro _
    rfl
  | case2 a =>
    intro h
    have ha : a < 256 := h a (by simp)
    have h1 := decChar_encChar_of_lt (a / 4) (by omega)
    have h2 := decChar_encChar_of_lt (a % 4 * 16) (by omega)
    simp only [Engine.btoa, Engine.atob, List.filterMap_cons, h1, h2,
      decChar_pad, List.filterMap_nil, Engine.decodeQuads, List.cons.injEq,
      and_true]
    omega
  | case3 a b =>
    intro h
    have ha : a < 256 := h a (by simp)
    have hb : b < 256 := h b (by simp)
    have h1 := decChar_encChar_of_lt (a / 4) (by omega)
    have h2 := decChar_encChar_of_lt (a % 4 * 16 + b / 16) (by omega)
    have h3 := decChar_encChar_of_lt (b % 16 * 4) (by omega)
    simp only [Engine.btoa, Engine.atob, List.filterMap_cons, h1, h2, h3,
      decChar_pad, List.filterMap_nil, Engine.decodeQuads, List.cons.injEq,
      and_true]
    constructor <;> omega
  | case4 a b c rest ih =>
    intro h
    have ha : a < 256 := h a (by simp)
    have hb : b < 256 := h b (by simp)
    have hc : c < 256 := h c (by simp)
    have h1 := decChar_encChar_of_lt (a / 4) (by omega)
    have h2 := decChar_encChar_of_lt (a % 4 * 16 + b / 16) (by omega)
    have h3 := decChar_encChar_of_lt (b % 16 * 4 + c / 64) (by omega)
    have h4 := decChar_encChar_of_lt (c % 64) (by omega)
    have hrest : Engine.atob (Engine.btoa rest) = rest :=
      ih (fun x hx => h x (by simp [hx]))
    simp only [Engine.atob] at hrest
    simp only [Engine.btoa, Engine.atob, List.filterMap_cons, h1, h2, h3, h4,
      Engine.decodeQuads, List.cons.injEq]
    exact ⟨by omega, by omega, by omega, hrest⟩

/-- Witness for the round trip at the byte sequence of the string hello. -/
theorem atob_btoa_roundtrip_witness :
    (∀ b ∈ ([104, 101, 108, 108, 111] : List Nat), b < 256) ∧
    Engine.atob (Engine.btoa [104, 101, 108, 108, 111]) =
      [104, 101, 108, 108, 111] :=
  ⟨by decide, atob_btoa_roundtrip [104, 101, 108, 108, 111] (by decide)⟩


/-- A successful head placeholder match decomposes the string into the
matched delimiter followed by the rest, and the delimiter is nonempty. -/
theorem phHead_decomp {s d a : List Char}
    (h : Engine.phHead s = some (d, a)) : s = d ++ a ∧ d ≠ [] := by
  unfold Engine.phHead at h
  split at h
  next c1 c2 r =>
    split at h
    next c3 tail heq =>
      split at h
      next hcond =>
        injection h with h'
        injection h' with hd ha
        subst hd
        subst ha
        constructor
        · have hsplit := List.takeWhile_append_dropWhile Engine.isIdChar r
          rw [heq] at hsplit
          simp only [List.cons_append, List.append_assoc, List.singleton_append,
            List.cons.injEq, true_and]
          exact hsplit.symm
        · simp
      next => simp at h
    next heq => simp at h
  all_goals simp at h

/-- A successful leftmost placeholder match decomposes the string as prefix,
delimiter, rest, with a nonempty delimiter. -/
theorem findPH_decomp : ∀ {s b d a : List Char},
    Engine.findPH s = some (b, d, a) → s = b ++ d ++ a ∧ d ≠ [] := by
  intro s
  induction s with
  | nil => intro b d a h; simp [Engine.findPH] at h
  | cons c r ih =>
    intro b d a h
    unfold Engine.findPH at h
    split at h
    next d0 a0 heq =>
      injection h with h'
      injection h' with hb h''
      injection h'' with hd ha
      subst hb
      subst hd
      subst ha
      have := phHead_decomp heq
      exact ⟨by simpa using this.1, this.2⟩
    next heq =>
      split at h
      next b0 d0 a0 heq2 =>
        injection h with h'
        injection h' with hb h''
        injection h'' with hd ha
        subst hb
        subst hd
        subst ha
        have := ih heq2
        refine ⟨?_, this.2⟩
        rw [List.cons_append, List.cons_append]
        exact congrArg (List.cons c) this.1
      next heq2 => simp at h

/-- Unfolding for the fuelled split at positive fuel when no placeholder is
found. -/
theorem splitGo_succ_none {f : Nat} {s : List Char}
    (h : Engine.findPH s = none) : Engine.splitGo (f + 1) s = [s] := by
  have he : Engine.splitGo (f + 1) s =
      (match Engine.findPH s with
       | none => [s]
       | some (b, d, a) => b :: d :: Engine.splitGo f a) := rfl
  rw [he, h]

/-- Unfolding for the fuelled split at positive fuel at a found
placeholder. -/
theorem splitGo_succ_some {f : Nat} {s b d a : List Char}
    (h : Engine.findPH s = some (b, d, a)) :
    Engine.splitGo (f + 1) s = b :: d :: Engine.splitGo f a := by
  have he : Engine.splitGo (f + 1) s =
      (match Engine.findPH s with
       | none => [s]
       | some (b, d, a) => b :: d :: Engine.splitGo f a) := rfl
  rw [he, h]

/-- The fuelled split does not depend on the fuel once it dominates the
length of the string. -/
theorem splitGo_congr : ∀ (f1 : Nat) (s : List Char) (f2 : Nat),
    s.length ≤ f1 → s.length ≤ f2 →
    Engine.splitGo f1 s = Engine.splitGo f2 s := by
  intro f1
  induction f1 with
  | zero =>
    intro s f2 h1 _
    have hs : s = [] := List.eq_nil_of_length_eq_zero (by omega)
    subst hs
    cases f2 with
    | zero => rfl
    | succ f2 => exact (@splitGo_succ_none f2 [] rfl).symm
  | succ f1 ih =>
    intro s f2 h1 h2
    cases f2 with
    | zero =>
      have hs : s = [] := List.eq_nil_of_length_eq_zero (by omega)
      subst hs
      exact @splitGo_succ_none f1 [] rfl
    | succ f2 =>
      cases h : Engine.findPH s with
      | none => rw [splitGo_succ_none h, splitGo_succ_none h]
      | some x =>
        obtain ⟨b, d, a⟩ := x
        have hdec := findPH_decomp h
        have hd : d.length ≠ 0 := fun hz =>
          hdec.2 (List.eq_nil_of_length_eq_zero hz)
        have ha : a.length < s.length := by
          rw [hdec.1]
          simp only [List.length_append]
          omega
        rw [splitGo_succ_some h, splitGo_succ_some h,
          ih a f2 (by omega) (by omega)]

/-- The capturing split of a string with no well-formed placeholder is the
single segment holding the whole string. -/
theorem splitPH_none {s : List Char} (h : Engine.findPH s = none) :
    Engine.splitPH s = [s] := by
  unfold Engine.splitPH
  cases hl : s.length with
  | zero => rfl
  | succ n => exact splitGo_succ_none h

/-- The capturing split at the leftmost placeholder: prefix segment,
delimiter segment, then the split of the rest. -/
theorem splitPH_some {s b d a : List Char}
    (h : Engine.findPH s = some (b, d, a)) :
    Engine.splitPH s = b :: d :: Engine.splitPH a := by
  have hdec := findPH_decomp h
  have hd : d.length ≠ 0 := fun hz => hdec.2 (List.eq_nil_of_length_eq_zero hz)
  have ha : a.length < s.length := by
    rw [hdec.1]
    simp only [List.length_append]
    omega
  unfold Engine.splitPH
  cases hl : s.length with
  | zero => omega
  | succ n =>
    rw [splitGo_succ_some h]
    rw [splitGo_congr n a a.length (by omega) (by omega)]

/-- A head placeholder attempt fails when the first character is not a
dollar sign. -/
theorem phHead_cons_ne {c : Char} {r : List Char} (hc : c ≠ '$') :
    Engine.phHead (c :: r) = none := by
  cases r with
  | nil => rfl
  | cons c2 r2 =>
    have he : Engine.phHead (c :: c2 :: r2) =
        (match r2.dropWhile Engine.isIdChar with
         | c3 :: tail =>
           if c = '$' ∧ c2 = '\x7b' ∧ c3 = '\x7d' ∧
               r2.takeWhile Engine.isIdChar ≠ [] then
             some (c :: c2 :: (r2.takeWhile Engine.isIdChar ++ [c3]), tail)
           else none
         | [] => none) := rfl
    rw [he]
    cases hd : r2.dropWhile Engine.isIdChar with
    | nil => rfl
    | cons c3 tail =>
      show (if c = '$' ∧ c2 = '\x7b' ∧ c3 = '\x7d' ∧
          r2.takeWhile Engine.isIdChar ≠ [] then
        some (c :: c2 :: (r2.takeWhile Engine.isIdChar ++ [c3]), tail)
      else none) = none
      rw [if_neg]
      intro hcon
      exact hc hcon.1

/-- Scanning past a non-dollar head character only prepends it to the
prefix of a later match. -/
theorem findPH_cons_ne {c : Char} {r : List Char} (hc : c ≠ '$') :
    Engine.findPH (c :: r) =
      (Engine.findPH r).map (fun x => (c :: x.1, x.2.1, x.2.2)) := by
  have he : Engine.findPH (c :: r) =
      (match Engine.phHead (c :: r) with
       | some (d, a) => some ([], d, a)
       | none =>
         match Engine.findPH r with
         | some (b, d, a) => some (c :: b, d, a)
         | none => none) := rfl
  rw [he, phHead_cons_ne hc]
  cases h : Engine.findPH r with
  | none => rfl
  | some x =>
    obtain ⟨b, d, a⟩ := x
    rfl

/-- A dollar-free string contains no well-formed placeholder. -/
theorem findPH_no_dollar : ∀ {s : List Char}, (∀ c ∈ s, c ≠ '$') →
    Engine.findPH s = none := by
  intro s
  induction s with
  | nil => intro _; rfl
  | cons c r ih =>
    intro h
    rw [findPH_cons_ne (h c (by simp)), ih (fun x hx => h x (by simp [hx]))]
    rfl

/-- A head lookup attempt fails when the first character is not a dollar
sign. -/
theorem mkHead_cons_ne {c : Char} {r : List Char} (hc : c ≠ '$') :
    Engine.mkHead (c :: r) = none := by
  cases r with
  | nil => rfl
  | cons c2 r2 =>
    have he : Engine.mkHead (c :: c2 :: r2) =
        (if c = '$' ∧ c2 = '\x7b' then Engine.greedyCap r2 else none) := rfl
    rw [he, if_neg]
    intro hcon
    exact hc hcon.1

/-- A failed head lookup attempt moves the scan one character right. -/
theorem matchKey_cons_none {c : Char} {r : List Char}
    (hm : Engine.mkHead (c :: r) = none) :
    Engine.matchKey (c :: r) = Engine.matchKey r := by
  have he : Engine.matchKey (c :: r) =
      (match Engine.mkHead (c :: r) with
       | some k => some k
       | none => Engine.matchKey r) := rfl
  rw [he, hm]

/-- The lookup regex never fires on a dollar-free string. -/
theorem matchKey_no_dollar : ∀ {s : List Char}, (∀ c ∈ s, c ≠ '$') →
    Engine.matchKey s = none := by
  intro s
  induction s with
  | nil => intro _; rfl
  | cons c r ih =>
    intro h
    rw [matchKey_cons_none (mkHead_cons_ne (h c (by simp))),
      ih (fun x hx => h x (by simp [hx]))]

/-- A run satisfying the predicate followed by a failing character is cut
exactly at that character by takeWhile and dropWhile. -/
theorem takeWhile_all_append {p : Char → Bool} :
    ∀ (k : List Char) (x : Char) (s : List Char), (∀ c ∈ k, p c = true) →
      p x = false →
      (k ++ x :: s).takeWhile p = k ∧ (k ++ x :: s).dropWhile p = x :: s := by
  intro k
  induction k with
  | nil =>
    intro x s _ hx
    constructor
    · simp [List.takeWhile_cons, hx]
    · simp [List.dropWhile_cons, hx]
  | cons a k ih =>
    intro x s hk hx
    have ha : p a = true := hk a (by simp)
    have hrec := ih x s (fun c hc => hk c (by simp [hc])) hx
    constructor
    · simp [List.takeWhile_cons, ha, hrec.1]
    · simp [List.dropWhile_cons, ha, hrec.2]

/-- A list all of whose elements satisfy the predicate is its own
takeWhile. -/
theorem takeWhile_all {p : Char → Bool} : ∀ {l : List Char},
    (∀ c ∈ l, p c = true) → l.takeWhile p = l := by
  intro l
  induction l with
  | nil => intro _; rfl
  | cons a l ih =>
    intro h
    simp [List.takeWhile_cons, h a (by simp), ih (fun c hc => h c (by simp [hc]))]

/-- The head placeholder attempt succeeds on a rendered well-formed
placeholder and consumes exactly it. -/
theorem phHead_placeholder {k : List Char} (s : List Char) (hk : k ≠ [])
    (hid : ∀ c ∈ k, Engine.isIdChar c = true) :
    Engine.phHead ('$' :: '\x7b' :: (k ++ '\x7d' :: s)) =
      some ('$' :: '\x7b' :: (k ++ ['\x7d']), s) := by
  have hbr : Engine.isIdChar '\x7d' = false := by decide
  have hsp := takeWhile_all_append k '\x7d' s hid hbr
  have he : Engine.phHead ('$' :: '\x7b' :: (k ++ '\x7d' :: s)) =
      (match (k ++ '\x7d' :: s).dropWhile Engine.isIdChar with
       | c3 :: tail =>
         if ('$' : Char) = '$' ∧ ('\x7b' : Char) = '\x7b' ∧ c3 = '\x7d' ∧
             (k ++ '\x7d' :: s).takeWhile Engine.isIdChar ≠ [] then
           some ('$' :: '\x7b' ::
             ((k ++ '\x7d' :: s).takeWhile Engine.isIdChar ++ [c3]), tail)
         else none
       | [] => none) := rfl
  rw [he, hsp.2, hsp.1]
  show (if ('$' : Char) = '$' ∧ ('\x7b' : Char) = '\x7b' ∧
      ('\x7d' : Char) = '\x7d' ∧ k ≠ [] then
    some ('$' :: '\x7b' :: (k ++ ['\x7d']), s)
  else none) = some ('$' :: '\x7b' :: (k ++ ['\x7d']), s)
  rw [if_pos ⟨rfl, rfl, rfl, hk⟩]

/-- Index of the final closing brace appended to a brace-free list. -/
theorem lastCloseIdx_append_close : ∀ {k : List Char}, '\x7d' ∉ k →
    Engine.lastCloseIdx (k ++ ['\x7d']) = some k.length := by
  intro k
  induction k with
  | nil => intro _; rfl
  | cons c r ih =>
    intro h
    have hr := ih (fun e => h (List.mem_cons_of_mem c e))
    have he : Engine.lastCloseIdx ((c :: r) ++ ['\x7d']) =
        (match Engine.lastCloseIdx (r ++ ['\x7d']) with
         | some j => some (j + 1)
         | none => if c = '\x7d' then some 0 else none) := rfl
    rw [he, hr]
    show some (r.length + 1) = some (c :: r).length
    simp

/-- The greedy capture of the lookup regex on a rendered placeholder body
returns exactly the key. -/
theorem greedyCap_key {k : List Char} (hk : k ≠ [])
    (hid : ∀ c ∈ k, Engine.isIdChar c = true)
    (hdot : ∀ c ∈ k, Engine.isDotChar c = true) :
    Engine.greedyCap (k ++ ['\x7d']) = some k := by
  have hall : ∀ c ∈ k ++ ['\x7d'], Engine.isDotChar c = true := by
    intro c hc
    rcases List.mem_append.1 hc with h1 | h1
    · exact hdot c h1
    · simp at h1
      subst h1
      decide
  have htw : (k ++ ['\x7d']).takeWhile Engine.isDotChar = k ++ ['\x7d'] :=
    takeWhile_all hall
  have hnb : '\x7d' ∉ k := by
    intro hm
    have := hid '\x7d' hm
    simp [Engine.isIdChar] at this
  have hkl : 1 ≤ k.length := by
    cases k with
    | nil => exact absurd rfl hk
    | cons _ _ => simp
  have he : Engine.greedyCap (k ++ ['\x7d']) =
      (match Engine.lastCloseIdx ((k ++ ['\x7d']).takeWhile Engine.isDotChar) with
       | some j =>
         if 1 ≤ j then
           some (((k ++ ['\x7d']).takeWhile Engine.isDotChar).take j)
         else none
       | none => none) := rfl
  rw [he, htw, lastCloseIdx_append_close hnb]
  show (if 1 ≤ k.length then some ((k ++ ['\x7d']).take k.length) else none) =
    some k
  rw [if_pos hkl]
  exact congrArg some (List.take_left k ['\x7d'])

/-- The lookup regex on a rendered placeholder captures exactly the key. -/
theorem matchKey_placeholder {k : List Char} (hk : k ≠ [])
    (hid : ∀ c ∈ k, Engine.isIdChar c = true)
    (hdot : ∀ c ∈ k, Engine.isDotChar c = true) :
    Engine.matchKey ('$' :: '\x7b' :: (k ++ ['\x7d'])) = some k := by
  have hm : Engine.mkHead ('$' :: '\x7b' :: (k ++ ['\x7d'])) = some k := by
    have he : Engine.mkHead ('$' :: '\x7b' :: (k ++ ['\x7d'])) =
        (if ('$' : Char) = '$' ∧ ('\x7b' : Char) = '\x7b' then
          Engine.greedyCap (k ++ ['\x7d']) else none) := rfl
    rw [he, if_pos ⟨rfl, rfl⟩]
    exact greedyCap_key hk hid hdot
  have he2 : Engine.matchKey ('$' :: '\x7b' :: (k ++ ['\x7d'])) =
      (match Engine.mkHead ('$' :: '\x7b' :: (k ++ ['\x7d'])) with
       | some q => some q
       | none => Engine.matchKey ('\x7b' :: (k ++ ['\x7d']))) := rfl
  rw [he2, hm]

/-- Prepending a dollar-free prefix shifts a leftmost placeholder match by
that prefix. -/
theorem findPH_append_no_dollar : ∀ {l : List Char} (s : List Char),
    (∀ c ∈ l, c ≠ '$') →
    Engine.findPH (l ++ s) =
      (Engine.findPH s).map (fun x => (l ++ x.1, x.2.1, x.2.2)) := by
  intro l
  induction l with
  | nil =>
    intro s _
    cases h : Engine.findPH s with
    | none => simp [h]
    | some x =>
      obtain ⟨b, d, a⟩ := x
      simp [h]
  | cons c l ih =>
    intro s hl
    rw [List.cons_append, findPH_cons_ne (hl c (by simp)),
      ih s (fun x hx => hl x (by simp [hx]))]
    cases h : Engine.findPH s with
    | none => rfl
    | some x =>
      obtain ⟨b, d, a⟩ := x
      rfl

/-- Core refinement: on a buffer rendered from an unambiguous template,
optionally behind a dollar-free pending prefix, replaceParams computes
exactly the specification-level template expansion. -/
theorem replaceParams_render : ∀ (t : List TPiece) (pre : List Char)
    (params : List (List Char × List Char)),
    (∀ c ∈ pre, c ≠ '$') → (∀ p ∈ t, goodPiece params p = true) →
    Engine.replaceParams (pre ++ renderT t) params =
      pre ++ specReplace params t := by
  intro t
  induction t with
  | nil =>
    intro pre params hpre _
    have h1 : Engine.findPH pre = none := findPH_no_dollar hpre
    have h2 : Engine.matchKey pre = none := matchKey_no_dollar hpre
    simp [renderT, specReplace, Engine.replaceParams, splitPH_none h1, h2]
  | cons p t ih =>
    intro pre params hpre hgood
    cases p with
    | lit s =>
      have hgl := hgood (TPiece.lit s) (by simp)
      have hs : ∀ c ∈ s, c ≠ '$' := by
        intro c hc
        simp only [goodPiece, List.all_eq_true, decide_eq_true_eq] at hgl
        exact hgl c hc
      have hps : ∀ c ∈ pre ++ s, c ≠ '$' := by
        intro c hc
        rcases List.mem_append.1 hc with h | h
        · exact hpre c h
        · exact hs c h
      calc Engine.replaceParams (pre ++ renderT (TPiece.lit s :: t)) params
          = Engine.replaceParams ((pre ++ s) ++ renderT t) params := by
            rw [renderT, List.append_assoc]
        _ = (pre ++ s) ++ specReplace params t :=
            ih (pre ++ s) params hps (fun q hq => hgood q (by simp [hq]))
        _ = pre ++ specReplace params (TPiece.lit s :: t) := by
            rw [specReplace, List.append_assoc]
    | ph k =>
      have hgk := hgood (TPiece.ph k) (by simp)
      simp only [goodPiece, Bool.and_eq_true, Bool.or_eq_true,
        Bool.not_eq_eq_eq_not, Bool.not_true, List.all_eq_true] at hgk
      have hk : k ≠ [] := by
        intro he
        subst he
        simp at hgk
      have hid : ∀ c ∈ k, Engine.isIdChar c = true := by
        intro c hc
        exact (hgk.1.2 c hc).1
      have hdot : ∀ c ∈ k, Engine.isDotChar c = true := by
        intro c hc
        exact (hgk.1.2 c hc).2
      have hh : Engine.findPH ('$' :: '\x7b' :: (k ++ '\x7d' :: renderT t)) =
          some ([], '$' :: '\x7b' :: (k ++ ['\x7d']), renderT t) := by
        have he : Engine.findPH ('$' :: '\x7b' :: (k ++ '\x7d' :: renderT t)) =
            (match Engine.phHead ('$' :: '\x7b' :: (k ++ '\x7d' :: renderT t)) with
             | some (d, a) => some ([], d, a)
             | none =>
               match Engine.findPH ('\x7b' :: (k ++ '\x7d' :: renderT t)) with
               | some (b, d, a) => some ('$' :: b, d, a)
               | none => none) := rfl
        rw [he, phHead_placeholder (renderT t) hk hid]
      have hfind : Engine.findPH (pre ++ renderT (TPiece.ph k :: t)) =
          some (pre, '$' :: '\x7b' :: (k ++ ['\x7d']), renderT t) := by
        rw [show renderT (TPiece.ph k :: t) =
          '$' :: '\x7b' :: (k ++ '\x7d' :: renderT t) from rfl]
        rw [findPH_append_no_dollar _ hpre, hh]
        simp
      have hsplit := splitPH_some hfind
      have hpre_mk : Engine.matchKey pre = none := matchKey_no_dollar hpre
      have hmk : Engine.matchKey ('$' :: '\x7b' :: (k ++ ['\x7d'])) = some k :=
        matchKey_placeholder hk hid hdot
      have hstep : (if Engine.jsIn params k = true then Engine.jsGet params k
          else []) =
          (match params.lookup k with
           | some v => v
           | none => []) := by
        cases hl : params.lookup k with
        | some v =>
          have ht : Engine.jsIn params k = true := by
            simp [Engine.jsIn, hl]
          rw [if_pos ht]
          simp [Engine.jsGet, hl]
        | none =>
          have hnp : Engine.protoProps.contains k = false := by
            rcases hgk.2 with hx | hx
            · rw [hl] at hx
              simp at hx
            · exact hx
          have ht : Engine.jsIn params k = false := by
            show ((params.lookup k).isSome ||
              Engine.protoProps.contains k) = false
            rw [hl, hnp]
            rfl
          rw [if_neg (by simp [ht])]
      have ihh := ih [] params (by simp) (fun q hq => hgood q (by simp [hq]))
      simp only [List.nil_append] at ihh
      simp only [Engine.replaceParams] at ihh ⊢
      rw [hsplit]
      simp only [List.map_cons, List.flatten_cons, hpre_mk, hmk]
      rw [hstep, ihh]
      rw [show specReplace params (TPiece.ph k :: t) =
        (match params.lookup k with
         | some v => v
         | none => []) ++ specReplace params t from rfl]

/-- C1 (amended): on every template made of dollar-free literal pieces and
placeholder pieces whose identifiers are nonempty, contain no dollar or
brace, contain no line terminator, and, when absent from params, are not
Object.prototype property names, replaceParams replaces each placeholder
whose identifier is a key of params by the corresponding value, drops each
placeholder whose identifier is absent, copies the literal pieces verbatim,
and concatenates with no separator. Outside this shape the claim fails:
other segments can be consumed by the greedy lookup regex (see the
counterexample), and an absent identifier that names an inherited
Object.prototype member is substituted by the stringified inherited value
because the in test of line 243 consults the prototype chain. -/
theorem replaceParams_refines_spec (t : List TPiece)
    (params : List (List Char × List Char))
    (h : ∀ p ∈ t, goodPiece params p = true) :
    Engine.replaceParams (renderT t) params = specReplace params t := by
  have hmain := replaceParams_render t [] params (by simp) h
  simpa using hmain

/-- Witness for the C1 refinement on the template Hello-name-bang with the
key name bound to World. -/
theorem replaceParams_refines_spec_witness :
    Engine.replaceParams
      (renderT [TPiece.lit "Hello ".toList, TPiece.ph "name".toList,
        TPiece.lit "!".toList])
      [("name".toList, "World".toList)] =
    specReplace [("name".toList, "World".toList)]
      [TPiece.lit "Hello ".toList, TPiece.ph "name".toList,
        TPiece.lit "!".toList] :=
  replaceParams_refines_spec
    [TPiece.lit "Hello ".toList, TPiece.ph "name".toList,
      TPiece.lit "!".toList]
    [("name".toList, "World".toList)] (by decide)

/-- C1 counterexample: the claim says a segment that is not of the form of
a well-formed placeholder is copied verbatim, but on the buffer
dollar-brace-a-brace-b-brace with empty params the code returns the empty
string, because the lookup regex matches the whole segment greedily. -/
theorem replaceParams_drops_malformed_segment :
    Engine.replaceParams ("$\x7ba\x7bb\x7d".toList) [] ≠
      "$\x7ba\x7bb\x7d".toList := by decide

/-- C8 (amended): replaceParams returns the input unchanged whenever the
input contains no well-formed placeholder and additionally no substring
matched by the greedy lookup pattern, that is, no dollar-brace followed by
a nonempty run of non-line-terminator characters ending in a closing
brace. -/
theorem replaceParams_id_of_no_match (s : List Char)
    (params : List (List Char × List Char))
    (h1 : Engine.findPH s = none) (h2 : Engine.matchKey s = none) :
    Engine.replaceParams s params = s := by
  simp [Engine.replaceParams, splitPH_none h1, h2]

/-- Witness for the amended C8 on a buffer with a lone dollar sign and no
braces. -/
theorem replaceParams_id_witness :
    Engine.replaceParams ("price: $5 only".toList) [] =
      "price: $5 only".toList :=
  replaceParams_id_of_no_match ("price: $5 only".toList) [] (by decide)
    (by decide)

/-- C8 counterexample: the buffer x-dollar-brace-p-brace-q-brace contains
zero occurrences of the well-formed placeholder pattern, yet replaceParams
with empty params does not return it unchanged: the greedy lookup regex
consumes the whole segment and the literal x with it. -/
theorem replaceParams_changes_without_placeholder :
    Engine.findPH ("x$\x7bp\x7bq\x7d".toList) = none ∧
    Engine.replaceParams ("x$\x7bp\x7bq\x7d".toList) [] ≠
      "x$\x7bp\x7bq\x7d".toList := by decide
